import Mathlib

/-!
Verification development for the `brewery` package-fetching client.

The Go source (`brewery.go`) is shallowly embedded below:

* `Formula`, `findFormulas` — the streaming index locator.  The JSON byte
  stream is abstracted as the list of `Formula` records that
  `json.Decoder.Decode` yields, in stream order; `findFormulas` additionally
  returns how many records were decoded so that early termination versus a
  full scan is observable.
* `Formula.ManifestURL` — manifest URL construction, with `strings.Replace
  (name, "@", "/", 1)` modelled character by character by `goReplace1`.
* `Manifest`, `TabForCurrentOS` — first matching platform entry lookup; the
  running platform (`runtime.GOOS`/`runtime.GOARCH`) is passed explicitly.
* `Install` — the one-hop resolver; network effects are parameters (the
  manifest fetch is an oracle function) and the two `findFormulas` passes
  are returned as the resolved install set.
* `_getRequest` — the status-code check on an already-performed HTTP round
  trip.
* `cloneDirWithSymlinks` — directory walking over an explicit source tree,
  with the destination file system as an association list of absolute paths
  (component lists) and `filepath.Rel`/symlink resolution modelled on path
  components.

Two pieces of the repository are exercised by its tests but absent from the
source tree; they are modelled from the specification and marked as such:
`jsonObjectSplitFunc` (the brace-depth tokenizer) and the bounded-concurrency
fetch orchestrator's counting semaphore.
-/

namespace Brewery

/-- Formula record, projected to the fields that the embedded operations
read: `Name`, `Versions.Stable`, `Revision`, `Bottle.Stable.Rebuild` and
`Bottle.Stable.RootURL`.  The Go struct carries many more JSON fields, none
of which are consulted by `findFormulas`, `ManifestURL` or `Install`. -/
structure Formula where
  name : String
  versionsStable : String
  revision : Int
  bottleStableRebuild : Int
  bottleStableRootURL : String
deriving DecidableEq, Repr

/-- Helper for concrete test records: a formula that only carries a name. -/
def mkFormula (n : String) : Formula :=
  { name := n, versionsStable := "", revision := 0
    bottleStableRebuild := 0, bottleStableRootURL := "" }

/-- Loop body of `findFormulas` (brewery.go:250-262 plus the epilogue
251-273).  `names` is the original argument slice, `nameSet` the membership
set built from it (Go: `map[string]struct{}`, hence deduplicated), `acc`
collects matched records most-recent-first, and the `Nat` counts decoded
records.  The missing-name list is produced by filtering `nameSet`; the Go
code enumerates the same set by iterating the map after deleting every
collected name (map iteration order is unspecified, so only membership in
that list is meaningful). -/
def ffLoop (names nameSet : List String) :
    List Formula → List Formula → Nat →
    (Except (List String) (List Formula)) × Nat
  | [], acc, k =>
    if acc.length = names.length then (Except.ok acc.reverse, k)
    else
      (Except.error
        (nameSet.filter (fun n => decide (¬ n ∈ acc.map Formula.name))), k)
  | f :: rest, acc, k =>
    if f.name ∈ nameSet then
      if names.length = (f :: acc).length then
        (Except.ok (f :: acc).reverse, k + 1)
      else ffLoop names nameSet rest (f :: acc) (k + 1)
    else ffLoop names nameSet rest acc (k + 1)

/-- Model of `findFormulas` (brewery.go:241-274).  The input stream is the
list of records the JSON decoder yields; the result carries the number of
records decoded before returning (the early-exit return at brewery.go:259
stops decoding immediately). -/
def findFormulas (records : List Formula) (names : List String) :
    (Except (List String) (List Formula)) × Nat :=
  ffLoop names names.dedup records [] 0

example :
    (findFormulas [mkFormula "a", mkFormula "b", mkFormula "c"] ["b"]).1
      = Except.ok [mkFormula "b"] := rfl

example :
    (findFormulas [mkFormula "a", mkFormula "b", mkFormula "c"] ["b"]).2
      = 2 := by decide

example :
    (findFormulas [mkFormula "a"] ["a", "b"]).1
      = Except.error ["b"] := rfl

/-- Mapping `Formula.name` over a name-based filter is filtering the name
list. -/
theorem map_name_filter (records : List Formula) (p : String → Bool) :
    (records.filter (fun f => p f.name)).map Formula.name
      = (records.map Formula.name).filter p := by
  induction records with
  | nil => rfl
  | cons f rest ih =>
    by_cases h : p f.name = true
    · simp [List.filter_cons, h, ih]
    · simp [List.filter_cons, h, ih]

/-- Filtering a duplicate-free list down to a duplicate-free sublist of
members yields a permutation of the requested members. -/
theorem filter_mem_perm (l names : List String)
    (h2 : names.Nodup) (h3 : l.Nodup) (h4 : ∀ n ∈ names, n ∈ l) :
    List.Perm (l.filter (fun x => decide (x ∈ names))) names := by
  rw [List.perm_ext_iff_of_nodup (h3.filter _) h2]
  intro a
  simp only [List.mem_filter, decide_eq_true_eq]
  exact ⟨fun h => h.2, fun ha => ⟨h4 a ha, ha⟩⟩

/-- When exactly as many matches remain in the stream as are needed to
reach the requested count, the locator loop succeeds and collects exactly
the matching records in stream order. -/
theorem ffLoop_ok (names nameSet : List String) :
    ∀ (rest acc : List Formula) (k : Nat),
      acc.length + (rest.filter (fun f => decide (f.name ∈ nameSet))).length
          = names.length →
      ∃ k2, ffLoop names nameSet rest acc k
        = (Except.ok
            (acc.reverse ++ rest.filter (fun f => decide (f.name ∈ nameSet))),
           k2) := by
  intro rest
  induction rest with
  | nil =>
    intro acc k h
    refine ⟨k, ?_⟩
    simp only [List.filter_nil, List.length_nil, Nat.add_zero] at h
    simp [ffLoop, h]
  | cons f rest ih =>
    intro acc k h
    by_cases hf : f.name ∈ nameSet
    · have hfilter : (f :: rest).filter (fun f => decide (f.name ∈ nameSet))
          = f :: rest.filter (fun f => decide (f.name ∈ nameSet)) := by
        simp [List.filter_cons, hf]
      rw [hfilter] at h ⊢
      by_cases hlen : names.length = (f :: acc).length
      · have hz : (rest.filter (fun f => decide (f.name ∈ nameSet))).length
            = 0 := by
          simp only [List.length_cons] at h hlen
          omega
        have hre : rest.filter (fun f => decide (f.name ∈ nameSet)) = [] :=
          List.length_eq_zero.mp hz
        refine ⟨k + 1, ?_⟩
        simp [ffLoop, hf, hlen, hre, List.reverse_cons]
      · have h2 : (f :: acc).length
            + (rest.filter (fun f => decide (f.name ∈ nameSet))).length
            = names.length := by
          simp only [List.length_cons] at h ⊢
          omega
        obtain ⟨k2, hk⟩ := ih (f :: acc) (k + 1) h2
        refine ⟨k2, ?_⟩
        simp only [ffLoop, if_pos hf, if_neg hlen]
        rw [hk]
        simp [List.reverse_cons, List.append_assoc]
    · have hfilter : (f :: rest).filter (fun f => decide (f.name ∈ nameSet))
          = rest.filter (fun f => decide (f.name ∈ nameSet)) := by
        simp [List.filter_cons, hf]
      rw [hfilter] at h ⊢
      obtain ⟨k2, hk⟩ := ih acc (k + 1) h
      refine ⟨k2, ?_⟩
      simp only [ffLoop, if_neg hf]
      exact hk

/-- A duplicate-free list contained in `nameSet` but avoiding one of its
members is strictly shorter than `nameSet`. -/
theorem nodup_subset_length_lt {acc nameSet : List String} (w : String)
    (hnd : acc.Nodup) (hsub : ∀ n ∈ acc, n ∈ nameSet)
    (hw : w ∈ nameSet) (hwa : ¬ w ∈ acc) :
    acc.length < nameSet.length := by
  have h1 : acc.toFinset.card = acc.length := List.toFinset_card_of_nodup hnd
  have h2 : acc.toFinset ⊆ nameSet.toFinset.erase w := by
    intro a ha
    rw [List.mem_toFinset] at ha
    refine Finset.mem_erase.mpr ⟨?_, List.mem_toFinset.mpr (hsub a ha)⟩
    rintro rfl
    exact hwa ha
  have h3 := Finset.card_le_card h2
  have h4 : (nameSet.toFinset.erase w).card = nameSet.toFinset.card - 1 :=
    Finset.card_erase_of_mem (List.mem_toFinset.mpr hw)
  have h5 : nameSet.toFinset.card ≤ nameSet.length := nameSet.toFinset_card_le
  have h6 : 0 < nameSet.toFinset.card :=
    Finset.card_pos.mpr ⟨w, List.mem_toFinset.mpr hw⟩
  omega

/-- When some requested name `w` never occurs in the stream, the locator
loop consumes the entire stream and fails, reporting the names of `nameSet`
that were not collected. -/
theorem ffLoop_error (names nameSet : List String) (w : String)
    (hwset : w ∈ nameSet) (hlen : nameSet.length ≤ names.length) :
    ∀ (rest acc : List Formula) (k : Nat),
      (acc.map Formula.name ++ rest.map Formula.name).Nodup →
      (∀ n ∈ acc.map Formula.name, n ∈ nameSet) →
      ¬ w ∈ acc.map Formula.name →
      ¬ w ∈ rest.map Formula.name →
      ffLoop names nameSet rest acc k
        = (Except.error (nameSet.filter (fun n =>
            decide (¬ n ∈
              ((rest.filter (fun f => decide (f.name ∈ nameSet))).reverse
                ++ acc).map Formula.name))),
           k + rest.length) := by
  intro rest
  induction rest with
  | nil =>
    intro acc k hnd hacc hwa _
    have hndacc : (acc.map Formula.name).Nodup := by simpa using hnd
    have hlt : (acc.map Formula.name).length < nameSet.length :=
      nodup_subset_length_lt w hndacc hacc hwset hwa
    rw [List.length_map] at hlt
    have hne : ¬ acc.length = names.length := by omega
    simp [ffLoop, hne]
  | cons f rest ih =>
    intro acc k hnd hacc hwa hwr
    have hmapcons : (f :: rest).map Formula.name
        = f.name :: rest.map Formula.name := rfl
    rw [hmapcons] at hnd hwr
    have hwf : ¬ w = f.name := fun h => hwr (h ▸ List.mem_cons_self _ _)
    have hwr2 : ¬ w ∈ rest.map Formula.name :=
      fun h => hwr (List.mem_cons_of_mem _ h)
    by_cases hf : f.name ∈ nameSet
    · have hnd2 : (f.name :: (acc.map Formula.name ++ rest.map Formula.name)).Nodup :=
        (List.perm_middle.nodup_iff).mp hnd
      have hfacc : ¬ f.name ∈ acc.map Formula.name := by
        intro hmem
        exact (List.nodup_cons.mp hnd2).1 (List.mem_append_left _ hmem)
      have hndacc2 : ((f :: acc).map Formula.name).Nodup := by
        rw [List.map_cons, List.nodup_cons]
        exact ⟨hfacc, ((List.nodup_cons.mp hnd2).2.sublist
          (List.sublist_append_left _ _) : (acc.map Formula.name).Nodup)⟩
      have hsub2 : ∀ n ∈ (f :: acc).map Formula.name, n ∈ nameSet := by
        intro n hn
        rcases List.mem_cons.mp hn with h | h
        · exact h ▸ hf
        · exact hacc n h
      have hwa2 : ¬ w ∈ (f :: acc).map Formula.name := by
        rw [List.map_cons]
        intro hmem
        rcases List.mem_cons.mp hmem with h | h
        · exact hwf h
        · exact hwa h
      have hlt : ((f :: acc).map Formula.name).length < nameSet.length :=
        nodup_subset_length_lt w hndacc2 hsub2 hwset hwa2
      rw [List.length_map] at hlt
      have hlne : ¬ names.length = (f :: acc).length := by omega
      have hnd3 : ((f :: acc).map Formula.name ++ rest.map Formula.name).Nodup := by
        rw [List.map_cons, List.cons_append]
        exact hnd2
      have hk := ih (f :: acc) (k + 1) hnd3 hsub2 hwa2 hwr2
      simp only [ffLoop, if_pos hf, if_neg hlne]
      rw [hk]
      simp only [Prod.mk.injEq]
      constructor
      · have hlist : (List.filter (fun f => decide (f.name ∈ nameSet))
              (f :: rest)).reverse ++ acc
            = (List.filter (fun f => decide (f.name ∈ nameSet))
                rest).reverse ++ f :: acc := by
          simp [List.filter_cons, hf, List.reverse_cons, List.append_assoc]
        rw [hlist]
      · simp only [List.length_cons]
        omega
    · have hnd4 : (acc.map Formula.name ++ rest.map Formula.name).Nodup :=
        hnd.sublist (List.Sublist.append_left
          (List.sublist_cons_of_sublist f.name (List.Sublist.refl _)) _)
      have hk := ih acc (k + 1) hnd4 hacc hwa hwr2
      simp only [ffLoop, if_neg hf]
      rw [hk]
      simp only [Prod.mk.injEq]
      constructor
      · have hlist : List.filter (fun f => decide (f.name ∈ nameSet)) (f :: rest)
            = List.filter (fun f => decide (f.name ∈ nameSet)) rest := by
          simp [List.filter_cons, hf]
        rw [hlist]
      · simp only [List.length_cons]
        omega

/-- Successful exits of the locator loop always return exactly as many
records as there are requested names (both exits at brewery.go:258-259 and
brewery.go:263-264 compare those two lengths). -/
theorem ffLoop_ok_length (names nameSet : List String) :
    ∀ (rest acc : List Formula) (k : Nat) (fs : List Formula) (k2 : Nat),
      ffLoop names nameSet rest acc k = (Except.ok fs, k2) →
      fs.length = names.length := by
  intro rest
  induction rest with
  | nil =>
    intro acc k fs k2 h
    by_cases hl : acc.length = names.length
    · simp only [ffLoop, if_pos hl, Prod.mk.injEq, Except.ok.injEq] at h
      rw [← h.1, List.length_reverse, hl]
    · simp only [ffLoop, if_neg hl, Prod.mk.injEq] at h
      exact absurd h.1 (by simp)
  | cons f rest ih =>
    intro acc k fs k2 h
    by_cases hf : f.name ∈ nameSet
    · by_cases hlen : names.length = (f :: acc).length
      · simp only [ffLoop, if_pos hf, if_pos hlen, Prod.mk.injEq,
          Except.ok.injEq] at h
        rw [← h.1, List.length_reverse, hlen]
      · simp only [ffLoop, if_pos hf, if_neg hlen] at h
        exact ih (f :: acc) (k + 1) fs k2 h
    · simp only [ffLoop, if_neg hf] at h
      exact ih acc (k + 1) fs k2 h

/-- C1: For every index stream of uniquely named formula records and every
non-empty duplicate-free list of requested names all of which occur in the
index, `findFormulas` succeeds and returns exactly the records bearing the
requested names — the matching sublist of the stream, whose name list is a
permutation of the requested names (one record per requested name, no
extras) — regardless of record order and of whether the early exit fires. -/
theorem findFormulas_complete (records : List Formula) (names : List String)
    (_h1 : names ≠ []) (h2 : names.Nodup)
    (h3 : (records.map Formula.name).Nodup)
    (h4 : ∀ n ∈ names, n ∈ records.map Formula.name) :
    (findFormulas records names).1
        = Except.ok (records.filter (fun f => decide (f.name ∈ names)))
      ∧ List.Perm
          ((records.filter (fun f => decide (f.name ∈ names))).map
            Formula.name)
          names := by
  have hdd : names.dedup = names := List.dedup_eq_self.mpr h2
  have hmap : (records.filter (fun f => decide (f.name ∈ names))).map
        Formula.name
      = (records.map Formula.name).filter (fun x => decide (x ∈ names)) :=
    map_name_filter records (fun x => decide (x ∈ names))
  have hperm : List.Perm
      ((records.map Formula.name).filter (fun x => decide (x ∈ names)))
      names :=
    filter_mem_perm (records.map Formula.name) names h2 h3 h4
  have hlenf : (records.filter (fun f => decide (f.name ∈ names))).length
      = names.length := by
    have := hperm.length_eq
    rw [← hmap] at this
    rw [← this, List.length_map]
  refine ⟨?_, hmap ▸ hperm⟩
  obtain ⟨k2, hk⟩ := ffLoop_ok names names.dedup records [] 0
    (by rw [hdd]; simpa using hlenf)
  rw [findFormulas, hk]
  simp [hdd]

/-- C1 witness at a concrete index and request. -/
theorem findFormulas_complete_witness :
    (findFormulas [mkFormula "a", mkFormula "b", mkFormula "c"]
        ["c", "a"]).1
      = Except.ok ([mkFormula "a", mkFormula "b", mkFormula "c"].filter
          (fun f => decide (f.name ∈ ["c", "a"])))
    ∧ List.Perm
        (([mkFormula "a", mkFormula "b", mkFormula "c"].filter
            (fun f => decide (f.name ∈ ["c", "a"]))).map Formula.name)
        ["c", "a"] :=
  findFormulas_complete
    [mkFormula "a", mkFormula "b", mkFormula "c"] ["c", "a"]
    (by decide) (by decide) (by decide) (by decide)

/-- C2: For every index stream of uniquely named records and every request
list with at least one name absent from the index, `findFormulas` fails
(returning no records), does so only after decoding every record of the
stream, and the missing-name list of the error contains exactly the
requested names absent from the index. -/
theorem findFormulas_missing (records : List Formula) (names : List String)
    (h3 : (records.map Formula.name).Nodup)
    (habs : ∃ n, n ∈ names ∧ ¬ n ∈ records.map Formula.name) :
    ∃ missing,
      findFormulas records names = (Except.error missing, records.length)
      ∧ ∀ n, n ∈ missing ↔ (n ∈ names ∧ ¬ n ∈ records.map Formula.name) := by
  obtain ⟨w, hw, hwabs⟩ := habs
  have hwset : w ∈ names.dedup := List.mem_dedup.mpr hw
  have hlen : names.dedup.length ≤ names.length :=
    (List.dedup_sublist names).length_le
  have h := ffLoop_error names names.dedup w hwset hlen records [] 0
    (by simpa using h3) (by simp) (by simp) (by simpa using hwabs)
  refine ⟨names.dedup.filter (fun n =>
      decide (¬ n ∈
        ((records.filter (fun f => decide (f.name ∈ names.dedup))).reverse
          ++ ([] : List Formula)).map Formula.name)), ?_, ?_⟩
  · rw [findFormulas, h]
    simp
  · intro n
    rw [List.mem_filter, List.mem_dedup, decide_eq_true_eq]
    constructor
    · rintro ⟨hn, hnot⟩
      refine ⟨hn, fun hmem => hnot ?_⟩
      obtain ⟨f, hf, hfn⟩ := List.mem_map.mp hmem
      refine List.mem_map.mpr ⟨f, ?_, hfn⟩
      rw [List.append_nil, List.mem_reverse, List.mem_filter]
      exact ⟨hf, by simp [hfn, List.mem_dedup.mpr hn]⟩
    · rintro ⟨hn, hnot⟩
      refine ⟨hn, fun hmem => hnot ?_⟩
      obtain ⟨f, hf, hfn⟩ := List.mem_map.mp hmem
      rw [List.append_nil, List.mem_reverse, List.mem_filter] at hf
      exact List.mem_map.mpr ⟨f, hf.1, hfn⟩

/-- C2 witness: requesting a and b against an index containing only a. -/
theorem findFormulas_missing_witness :
    ∃ missing,
      findFormulas [mkFormula "a"] ["a", "b"]
        = (Except.error missing, ([mkFormula "a"] : List Formula).length)
      ∧ ∀ n, n ∈ missing
          ↔ (n ∈ ["a", "b"] ∧ ¬ n ∈ [mkFormula "a"].map Formula.name) :=
  findFormulas_missing [mkFormula "a"] ["a", "b"] (by decide)
    ⟨"b", by decide, by decide⟩

/-- C10: Whenever `findFormulas` succeeds, the returned list has exactly as
many records as there are requested names (both exits compare only those
two counts), and consequently an index holding two records with the same
requested name satisfies a two-name request even though the second
requested name never occurs: the early exit fires after the duplicate. -/
theorem findFormulas_count :
    (∀ (records : List Formula) (names : List String)
        (fs : List Formula) (k : Nat),
      findFormulas records names = (Except.ok fs, k) →
      fs.length = names.length)
    ∧ (findFormulas [mkFormula "a", mkFormula "a"] ["a", "b"]
        = (Except.ok [mkFormula "a", mkFormula "a"], 2)
      ∧ ¬ "b" ∈ ([mkFormula "a", mkFormula "a"].map Formula.name)) := by
  refine ⟨?_, rfl, by decide⟩
  intro records names fs k h
  exact ffLoop_ok_length names names.dedup records [] 0 fs k h

/-- C10 witness: the count equation at the duplicate-name index. -/
theorem findFormulas_count_witness :
    ([mkFormula "a", mkFormula "a"] : List Formula).length
      = (["a", "b"] : List String).length :=
  findFormulas_count.1 [mkFormula "a", mkFormula "a"] ["a", "b"]
    [mkFormula "a", mkFormula "a"] 2 rfl

/-- Model of `strings.Replace(s, "@", "/", 1)` (brewery.go:382): replace the
first occurrence of the at sign by a slash; since both pattern and
replacement are single characters this is a character-wise scan. -/
def goReplace1 : List Char → List Char
  | [] => []
  | c :: rest => if c = '@' then '/' :: rest else c :: goReplace1 rest

/-- Model of `Formula.ManifestURL` (brewery.go:378-391): the base URL is
built by one format call and the revision/rebuild suffixes are appended by
two separate conditional writes, exactly as in the Go method. -/
def Formula.ManifestURL (f : Formula) : String :=
  let base := f.bottleStableRootURL ++ "/"
    ++ String.mk (goReplace1 f.name.data) ++ "/manifests/" ++ f.versionsStable
  let u1 := if f.revision ≠ 0 then base ++ "_" ++ toString f.revision else base
  if f.bottleStableRebuild ≠ 0 then u1 ++ "-" ++ toString f.bottleStableRebuild
  else u1

theorem string_append_assoc (a b c : String) : a ++ b ++ c = a ++ (b ++ c) := by
  cases a with | mk la =>
  cases b with | mk lb =>
  cases c with | mk lc =>
  show String.mk (la ++ lb ++ lc) = String.mk (la ++ (lb ++ lc))
  rw [List.append_assoc]

theorem string_append_empty (a : String) : a ++ "" = a := by
  cases a with | mk la =>
  show String.mk (la ++ []) = String.mk la
  rw [List.append_nil]

/-- C6: `ManifestURL` is the bottle stable root URL, a slash, the formula
name with its first at sign replaced by a slash, `/manifests/`, the stable
version, then `_<revision>` exactly when the revision is nonzero and
`-<rebuild>` exactly when the bottle rebuild is nonzero; and the character
replacement really rewrites exactly the first at sign. -/
theorem ManifestURL_spec :
    (∀ f : Formula,
      Formula.ManifestURL f
        = f.bottleStableRootURL ++ "/" ++ String.mk (goReplace1 f.name.data)
            ++ "/manifests/" ++ f.versionsStable
            ++ (if f.revision ≠ 0 then "_" ++ toString f.revision else "")
            ++ (if f.bottleStableRebuild ≠ 0 then
                  "-" ++ toString f.bottleStableRebuild
                else ""))
    ∧ (∀ s : List Char, ¬ '@' ∈ s → goReplace1 s = s)
    ∧ (∀ a b : List Char, ¬ '@' ∈ a →
        goReplace1 (a ++ '@' :: b) = a ++ '/' :: b) := by
  refine ⟨?_, ?_, ?_⟩
  · intro f
    rw [Formula.ManifestURL]
    by_cases hrev : f.revision ≠ 0
    · by_cases hreb : f.bottleStableRebuild ≠ 0
      · rw [if_pos hrev, if_pos hreb, if_pos hrev, if_pos hreb]
        rw [string_append_assoc _ "_" _, string_append_assoc _ "-" _]
      · rw [if_pos hrev, if_neg hreb, if_pos hrev, if_neg hreb]
        rw [string_append_assoc _ "_" _, string_append_empty]
    · by_cases hreb : f.bottleStableRebuild ≠ 0
      · rw [if_neg hrev, if_pos hreb, if_neg hrev, if_pos hreb]
        rw [string_append_empty, string_append_assoc _ "-" _]
      · rw [if_neg hrev, if_neg hreb, if_neg hrev, if_neg hreb]
        rw [string_append_empty, string_append_empty]
  · intro s hs
    induction s with
    | nil => rfl
    | cons c rest ih =>
      have hc : ¬ c = '@' := fun h => hs (h ▸ List.mem_cons_self _ _)
      rw [goReplace1, if_neg hc, ih (fun h => hs (List.mem_cons_of_mem _ h))]
  · intro a b ha
    induction a with
    | nil => simp [goReplace1]
    | cons c rest ih =>
      have hc : ¬ c = '@' := fun h => ha (h ▸ List.mem_cons_self _ _)
      rw [List.cons_append, goReplace1, if_neg hc,
        ih (fun h => ha (List.mem_cons_of_mem _ h)), List.cons_append]

/-- C6 witness: a versioned formula with nonzero revision and rebuild. -/
theorem ManifestURL_spec_witness :
    Formula.ManifestURL
        { name := "ruby@3.2", versionsStable := "3.2.2", revision := 1
          bottleStableRebuild := 2
          bottleStableRootURL := "https://ghcr.io/v2/homebrew/core" }
      = "https://ghcr.io/v2/homebrew/core/ruby/3.2/manifests/3.2.2_1-2"
    ∧ goReplace1 ("no-at-sign".data) = "no-at-sign".data := by
  constructor
  · rw [ManifestURL_spec.1
      { name := "ruby@3.2", versionsStable := "3.2.2", revision := 1
        bottleStableRebuild := 2
        bottleStableRootURL := "https://ghcr.io/v2/homebrew/core" }]
    decide
  · exact ManifestURL_spec.2.1 ("no-at-sign".data) (by decide)

/-- Runtime dependency record embedded in a Tab (brewery.go:425-429). -/
structure Dependency where
  fullName : String
  version : String
  declaredDirectly : Bool
deriving DecidableEq, Repr

/-- Tab build metadata, projected to the field the resolver reads
(brewery.go:431-446). -/
structure BrewTab where
  runtimeDependencies : List Dependency
deriving DecidableEq, Repr

/-- One entry of the manifest list, projected to the fields read by
`TabForCurrentOS` (brewery.go:393-414): the platform pair and the embedded
tab (`Annotations.ShBrewTab`, already string-decoded). -/
structure ManifestEntry where
  platformArchitecture : String
  platformOs : String
  shBrewTab : BrewTab
deriving DecidableEq, Repr

/-- Manifest document (brewery.go:393-414). -/
structure Manifest where
  manifests : List ManifestEntry
deriving DecidableEq, Repr

/-- Loop of `Manifest.TabForCurrentOS` (brewery.go:416-423); the running
platform `runtime.GOOS`/`runtime.GOARCH` is passed explicitly. -/
def tabLoop (goos goarch : String) : List ManifestEntry → Except String BrewTab
  | [] => Except.error ("no tab found for " ++ goos ++ "/" ++ goarch)
  | e :: rest =>
    if e.platformOs = goos ∧ e.platformArchitecture = goarch then
      Except.ok e.shBrewTab
    else tabLoop goos goarch rest

/-- Model of `Manifest.TabForCurrentOS` (brewery.go:416-423). -/
def TabForCurrentOS (goos goarch : String) (m : Manifest) :
    Except String BrewTab :=
  tabLoop goos goarch m.manifests

/-- The platform loop succeeds with `tb` exactly when some entry matches,
the first matching entry is the one returned, and nothing before it
matches. -/
theorem tabLoop_ok_iff (goos goarch : String) :
    ∀ (l : List ManifestEntry) (tb : BrewTab),
      tabLoop goos goarch l = Except.ok tb ↔
        ∃ i, ∃ h : i < l.length,
          (l.get ⟨i, h⟩).platformOs = goos
          ∧ (l.get ⟨i, h⟩).platformArchitecture = goarch
          ∧ tb = (l.get ⟨i, h⟩).shBrewTab
          ∧ ∀ j (hj : j < i),
              ¬ ((l.get ⟨j, Nat.lt_trans hj h⟩).platformOs = goos
                ∧ (l.get ⟨j, Nat.lt_trans hj h⟩).platformArchitecture
                    = goarch) := by
  intro l
  induction l with
  | nil =>
    intro tb
    constructor
    · intro h
      exact absurd h (by simp [tabLoop])
    · rintro ⟨i, h, _⟩
      exact absurd h (by simp)
  | cons e rest ih =>
    intro tb
    by_cases he : e.platformOs = goos ∧ e.platformArchitecture = goarch
    · simp only [tabLoop, if_pos he]
      constructor
      · intro h
        injection h with h2
        refine ⟨0, by simp, he.1, he.2, h2.symm, ?_⟩
        intro j hj
        omega
      · rintro ⟨i, hi, h1, h2, h3, h4⟩
        cases i with
        | zero =>
          rw [h3]
          rfl
        | succ i2 => exact absurd he (h4 0 (Nat.succ_pos i2))
    · simp only [tabLoop, if_neg he]
      rw [ih tb]
      constructor
      · rintro ⟨i, hi, h1, h2, h3, h4⟩
        refine ⟨i + 1, Nat.succ_lt_succ hi, h1, h2, h3, ?_⟩
        intro j hj
        cases j with
        | zero => exact fun hc => he hc
        | succ j2 => exact h4 j2 (Nat.lt_of_succ_lt_succ hj)
      · rintro ⟨i, hi, h1, h2, h3, h4⟩
        cases i with
        | zero => exact absurd ⟨h1, h2⟩ he
        | succ i2 =>
          refine ⟨i2, Nat.lt_of_succ_lt_succ hi, h1, h2, h3, ?_⟩
          intro j hj
          exact h4 (j + 1) (Nat.succ_lt_succ hj)

/-- The platform loop fails exactly when no entry matches the platform. -/
theorem tabLoop_error_iff (goos goarch : String) :
    ∀ l : List ManifestEntry,
      (∃ msg, tabLoop goos goarch l = Except.error msg)
        ↔ ∀ e ∈ l,
            ¬ (e.platformOs = goos ∧ e.platformArchitecture = goarch) := by
  intro l
  induction l with
  | nil =>
    constructor
    · intro _ e he
      cases he
    · intro _
      exact ⟨_, rfl⟩
  | cons e rest ih =>
    by_cases he : e.platformOs = goos ∧ e.platformArchitecture = goarch
    · simp only [tabLoop, if_pos he]
      constructor
      · rintro ⟨msg, hmsg⟩
        exact absurd hmsg (by simp)
      · intro hall
        exact absurd he (hall e (List.mem_cons_self _ _))
    · simp only [tabLoop, if_neg he]
      constructor
      · intro h e2 he2
        rcases List.mem_cons.mp he2 with rfl | hmem
        · exact he
        · exact (ih.mp h) e2 hmem
      · intro hall
        exact ih.mpr (fun e2 he2 => hall e2 (List.mem_cons_of_mem _ he2))

/-- C7: `TabForCurrentOS` returns the embedded Tab of the first manifest
entry whose platform os and architecture both equal the running platform
values (nothing before it matches), and it returns the
platform-unsupported error exactly when no entry matches. -/
theorem TabForCurrentOS_spec (goos goarch : String) (m : Manifest) :
    (∀ tb, TabForCurrentOS goos goarch m = Except.ok tb ↔
      ∃ i, ∃ h : i < m.manifests.length,
        (m.manifests.get ⟨i, h⟩).platformOs = goos
        ∧ (m.manifests.get ⟨i, h⟩).platformArchitecture = goarch
        ∧ tb = (m.manifests.get ⟨i, h⟩).shBrewTab
        ∧ ∀ j (hj : j < i),
            ¬ ((m.manifests.get ⟨j, Nat.lt_trans hj h⟩).platformOs = goos
              ∧ (m.manifests.get ⟨j, Nat.lt_trans hj h⟩).platformArchitecture
                  = goarch))
    ∧ ((∃ msg, TabForCurrentOS goos goarch m = Except.error msg)
        ↔ ∀ e ∈ m.manifests,
            ¬ (e.platformOs = goos ∧ e.platformArchitecture = goarch)) :=
  ⟨fun tb => tabLoop_ok_iff goos goarch m.manifests tb,
   tabLoop_error_iff goos goarch m.manifests⟩

/-- C7 witness: an empty manifest yields the platform-unsupported error. -/
theorem TabForCurrentOS_spec_witness :
    ∃ msg, TabForCurrentOS "linux" "amd64" { manifests := [] }
      = Except.error msg :=
  (TabForCurrentOS_spec "linux" "amd64" { manifests := [] }).2.mpr
    (by intro e he; cases he)

/-- HTTP response as seen after `httpClient.Do` returns: a status code and
the (fully readable) body. -/
structure HTTPResponse where
  statusCode : Int
  body : String
deriving DecidableEq, Repr

/-- Outcome of `_getRequest` (brewery.go:80-111), keeping the information
content of each return path: the response on success, the status code
together with the captured body on a bad status, and the wrapped transport
error otherwise. -/
inductive GetResult where
  | success (resp : HTTPResponse) : GetResult
  | badStatus (code : Int) (capturedBody : String) : GetResult
  | transportError (msg : String) : GetResult
deriving DecidableEq, Repr

def GetResult.isSuccess : GetResult → Bool
  | GetResult.success _ => true
  | _ => false

/-- Model of `_getRequest` (brewery.go:97-110) applied to the result of
`httpClient.Do`: a transport failure is wrapped and returned; otherwise the
response is returned as-is when the status code equals `http.StatusOK`
(200) and turned into an error carrying the status code and the body read
into a buffer when it does not. -/
def _getRequest (doResult : Except String HTTPResponse) : GetResult :=
  match doResult with
  | Except.error e => GetResult.transportError ("error making GET request: " ++ e)
  | Except.ok resp =>
    if resp.statusCode ≠ 200 then GetResult.badStatus resp.statusCode resp.body
    else GetResult.success resp

/-- C8 counterexample, refuting both divergent parts of the claim.
First, 204 No Content is a 2xx status code, yet `_getRequest` rejects it,
because the code compares against exactly `http.StatusOK` (200), not
against the 2xx class.  Second, the body capture is not bounded: the
`io.Copy` at brewery.go:104 reads the response body in full, so for every
candidate bound there is a rejected response whose captured body is longer
than that bound. -/
theorem getRequest_2xx_counterexample :
    (((200 : Int) ≤ 204 ∧ (204 : Int) < 300)
      ∧ _getRequest (Except.ok { statusCode := 204, body := "no content" })
          = GetResult.badStatus 204 "no content"
      ∧ GetResult.isSuccess
          (_getRequest
            (Except.ok { statusCode := 204, body := "no content" }))
          = false)
    ∧ (∀ B : Nat, ∃ resp : HTTPResponse, resp.statusCode ≠ 200
        ∧ _getRequest (Except.ok resp)
            = GetResult.badStatus resp.statusCode resp.body
        ∧ B < resp.body.length) := by
  refine ⟨⟨by decide, rfl, rfl⟩, ?_⟩
  intro B
  refine ⟨{ statusCode := 404, body := String.mk (List.replicate (B + 1) 'x') },
    show (404 : Int) ≠ 200 by decide, ?_, ?_⟩
  · simp [_getRequest]
  · show B < (String.mk (List.replicate (B + 1) 'x')).length
    rw [String.length]
    simp

/-- C8 (amended): for every completed HTTP round trip, if the status code
differs from 200 the call returns an error carrying the status code and
the response body captured in full (not a bounded capture), and if the
status code equals 200 the call returns the response without error. -/
theorem getRequest_status_check (resp : HTTPResponse) :
    (resp.statusCode ≠ 200 →
      _getRequest (Except.ok resp) = GetResult.badStatus resp.statusCode resp.body)
    ∧ (resp.statusCode = 200 →
      _getRequest (Except.ok resp) = GetResult.success resp) := by
  constructor
  · intro h
    simp [_getRequest, h]
  · intro h
    simp [_getRequest, h]

/-- C8 witness: a 404 is rejected with its body captured; a 200 passes. -/
theorem getRequest_status_check_witness :
    _getRequest (Except.ok { statusCode := 404, body := "not found" })
      = GetResult.badStatus 404 "not found"
    ∧ _getRequest (Except.ok { statusCode := 200, body := "ok" })
      = GetResult.success { statusCode := 200, body := "ok" } :=
  ⟨(getRequest_status_check { statusCode := 404, body := "not found" }).1
      (by decide),
   (getRequest_status_check { statusCode := 200, body := "ok" }).2 rfl⟩

/-- Errors surfaced by `Install` (brewery.go:156-185), one constructor per
`return fmt.Errorf(...)` site; `indexOutOfRange` stands for the
`formulas[0]` panic, which is unreachable because a successful
`findFormulas` returns as many records as names requested. -/
inductive InstallError where
  | findError (missing : List String) : InstallError
  | manifestError (msg : String) : InstallError
  | tabError (msg : String) : InstallError
  | indexOutOfRange : InstallError
deriving DecidableEq, Repr

/-- Model of `Install` (brewery.go:156-185).  The opened index file is the
record list `index`, manifest fetching is the oracle `fetchManifest`, and
the running platform is explicit.  The Go function discards the two
`findFormulas` results and returns only `nil`; the model returns them as
the resolved install set (first pass: the root; second pass: the declared
runtime dependencies) so that the resolution can be stated. -/
def Install (goos goarch : String) (index : List Formula)
    (fetchManifest : String → Except String Manifest) (formula : String) :
    Except InstallError (List Formula × List Formula) :=
  match (findFormulas index [formula]).1 with
  | Except.error missing => Except.error (InstallError.findError missing)
  | Except.ok formulas =>
    match formulas with
    | [] => Except.error InstallError.indexOutOfRange
    | formulaData :: _ =>
      match fetchManifest (Formula.ManifestURL formulaData) with
      | Except.error e => Except.error (InstallError.manifestError e)
      | Except.ok m =>
        match TabForCurrentOS goos goarch m with
        | Except.error e => Except.error (InstallError.tabError e)
        | Except.ok tb =>
          match (findFormulas index
              (tb.runtimeDependencies.map Dependency.fullName)).1 with
          | Except.error missing => Except.error (InstallError.findError missing)
          | Except.ok formulas2 => Except.ok (formulas, formulas2)

/-- C5: one-hop resolution scenario: the index contains uniquely named
records including ruby, openssl and libyaml; the fetched manifest's Tab for
the current platform declares runtime dependencies openssl and libyaml;
then `Install ... "ruby"` succeeds and the resolved install set (first pass
plus second pass) carries exactly the names ruby, openssl and libyaml. -/
theorem Install_one_hop (goos goarch : String) (index : List Formula)
    (fetchManifest : String → Except String Manifest) (m : Manifest)
    (tb : BrewTab)
    (hND : (index.map Formula.name).Nodup)
    (hruby : "ruby" ∈ index.map Formula.name)
    (hopenssl : "openssl" ∈ index.map Formula.name)
    (hlibyaml : "libyaml" ∈ index.map Formula.name)
    (hfetch : ∀ u, fetchManifest u = Except.ok m)
    (htab : TabForCurrentOS goos goarch m = Except.ok tb)
    (hdeps : tb.runtimeDependencies.map Dependency.fullName
      = ["openssl", "libyaml"]) :
    ∃ fs1 fs2,
      Install goos goarch index fetchManifest "ruby" = Except.ok (fs1, fs2)
      ∧ List.Perm ((fs1 ++ fs2).map Formula.name)
          ["ruby", "openssl", "libyaml"] := by
  have hpass1 := findFormulas_complete index ["ruby"] (by simp)
    (by simp) hND (by simpa using hruby)
  have hpass2 := findFormulas_complete index ["openssl", "libyaml"]
    (by simp) (by decide) hND
    (by
      intro n hn
      rcases List.mem_cons.mp hn with rfl | hn2
      · exact hopenssl
      · rcases List.mem_cons.mp hn2 with rfl | hn3
        · exact hlibyaml
        · cases hn3)
  set fs1 := index.filter (fun f => decide (f.name ∈ (["ruby"] : List String)))
    with hfs1def
  set fs2 := index.filter
    (fun f => decide (f.name ∈ (["openssl", "libyaml"] : List String)))
    with hfs2def
  have hlen1 : fs1.length = 1 := by
    have := hpass1.2.length_eq
    rw [List.length_map] at this
    simpa using this
  obtain ⟨f0, hf0⟩ : ∃ f0, fs1 = [f0] := by
    cases hfs : fs1 with
    | nil => rw [hfs] at hlen1; cases hlen1
    | cons x rest =>
      rw [hfs] at hlen1
      simp only [List.length_cons] at hlen1
      have : rest = [] := List.length_eq_zero.mp (by omega)
      exact ⟨x, by rw [this]⟩
  refine ⟨fs1, fs2, ?_, ?_⟩
  · simp only [Install, hpass1.1, hf0, hfetch, htab, hdeps, hpass2.1]
  · have h1 : List.Perm (fs1.map Formula.name) ["ruby"] := hpass1.2
    have h2 : List.Perm (fs2.map Formula.name) ["openssl", "libyaml"] :=
      hpass2.2
    rw [List.map_append]
    exact (h1.append h2)

/-- C5 witness: a three-record index and a single-entry manifest. -/
theorem Install_one_hop_witness :
    ∃ fs1 fs2,
      Install "linux" "amd64"
          [mkFormula "ruby", mkFormula "openssl", mkFormula "libyaml"]
          (fun _ => Except.ok
            { manifests := [{ platformArchitecture := "amd64"
                              platformOs := "linux"
                              shBrewTab :=
                                { runtimeDependencies :=
                                    [{ fullName := "openssl", version := ""
                                       declaredDirectly := true },
                                     { fullName := "libyaml", version := ""
                                       declaredDirectly := true }] } }] })
          "ruby"
        = Except.ok (fs1, fs2)
      ∧ List.Perm ((fs1 ++ fs2).map Formula.name)
          ["ruby", "openssl", "libyaml"] :=
  Install_one_hop "linux" "amd64"
    [mkFormula "ruby", mkFormula "openssl", mkFormula "libyaml"]
    (fun _ => Except.ok
      { manifests := [{ platformArchitecture := "amd64"
                        platformOs := "linux"
                        shBrewTab :=
                          { runtimeDependencies :=
                              [{ fullName := "openssl", version := ""
                                 declaredDirectly := true },
                               { fullName := "libyaml", version := ""
                                 declaredDirectly := true }] } }] })
    { manifests := [{ platformArchitecture := "amd64"
                      platformOs := "linux"
                      shBrewTab :=
                        { runtimeDependencies :=
                            [{ fullName := "openssl", version := ""
                               declaredDirectly := true },
                             { fullName := "libyaml", version := ""
                               declaredDirectly := true }] } }] }
    { runtimeDependencies :=
        [{ fullName := "openssl", version := "", declaredDirectly := true },
         { fullName := "libyaml", version := "", declaredDirectly := true }] }
    (by decide) (by decide) (by decide) (by decide)
    (fun _ => rfl) rfl rfl

/-- Modelled from the spec: `jsonObjectSplitFunc` is referenced by the
repository's tests (`Test_jsonObjectSplitFunc`, `TestFormulaIndex`) but its
definition is not in the source tree.  Per spec section 4.1, it scans raw
bytes for the boundaries of each top-level JSON object by brace-depth
counting, treats a backslash-escaped character inside an object as
non-structural, ignores everything (whitespace, brackets, commas) between
objects, and drops a truncated trailing object at end of stream.  The
accumulator `cur` holds the current object's characters in reverse;
`acc` holds completed tokens in reverse. -/
def jsonTokens : List Char → Nat → List Char → List String → List String
  | [], _, _, acc => acc.reverse
  | c :: rest, 0, _, acc =>
    if c = '{' then jsonTokens rest 1 [c] acc
    else jsonTokens rest 0 [] acc
  | '\\' :: rest, d + 1, cur, acc =>
    match rest with
    | [] => acc.reverse
    | c2 :: rest2 => jsonTokens rest2 (d + 1) (c2 :: '\\' :: cur) acc
  | c :: rest, d + 1, cur, acc =>
    if c = '{' then jsonTokens rest (d + 2) (c :: cur) acc
    else if c = '}' then
      match d with
      | 0 => jsonTokens rest 0 [] (String.mk (('}' :: cur).reverse) :: acc)
      | d2 + 1 => jsonTokens rest (d2 + 1) (c :: cur) acc
    else jsonTokens rest (d + 1) (c :: cur) acc

/-- Modelled from the spec: the stream of tokens that a `bufio.Scanner`
using `jsonObjectSplitFunc` produces for a whole input. -/
def jsonObjectSplitFunc (s : String) : List String :=
  jsonTokens s.data 0 [] []

/-- C3: the five literal tokenizer cases: plain bracketed stream; an
escaped closing brace inside a string does not change depth; interior
whitespace and a trailing comma are insignificant; a bracket-free stream
tokenizes identically; a truncated trailing object yields no token. -/
theorem jsonObjectSplitFunc_cases :
    jsonObjectSplitFunc
        (String.mk ['[', '{', '}', ',', '{', '{', '}', '}', ']'])
      = [String.mk ['{', '}'], String.mk ['{', '{', '}', '}']]
    ∧ jsonObjectSplitFunc
        (String.mk ['[', '{', '}', ',', '{', '\"', 'f', '\"', ':', '\"',
          '\\', '}', '\"', '}', ']'])
      = [String.mk ['{', '}'],
         String.mk ['{', '\"', 'f', '\"', ':', '\"', '\\', '}', '\"', '}']]
    ∧ jsonObjectSplitFunc
        (String.mk ['[', ' ', '{', '}', ',', ' ', ' ', ' ', ' ', '{', '{',
          '}', '}', ',', ' ', ']'])
      = [String.mk ['{', '}'], String.mk ['{', '{', '}', '}']]
    ∧ jsonObjectSplitFunc (String.mk ['{', '}', ',', '{', '{', '}', '}'])
      = [String.mk ['{', '}'], String.mk ['{', '{', '}', '}']]
    ∧ jsonObjectSplitFunc (String.mk ['[', '{', '}', ',', '{', '{'])
      = [String.mk ['{', '}']] :=
  ⟨rfl, rfl, rfl, rfl, rfl⟩

/-- Modelled from the spec: the fetch orchestrator (the `InstallParallel`
and `InstallParallel2` scheduling policies exercised by `TestInstall`) is
not in the source tree.  Per spec sections 4.4 and 5, work units pass
through pending, in-flight and done states, and a counting semaphore of
fixed capacity guards entry to the in-flight state. -/
structure OrchState where
  inFlight : Nat
  pending : Nat
  done : Nat
deriving DecidableEq, Repr

/-- Modelled from the spec: one scheduler transition.  A unit may start
only by acquiring the semaphore, which requires the in-flight count to be
below the cap; finishing a unit releases the semaphore. -/
inductive OrchStep (cap : Nat) : OrchState → OrchState → Prop
  | acquire (f p d : Nat) : f < cap →
      OrchStep cap ⟨f, p + 1, d⟩ ⟨f + 1, p, d⟩
  | release (f p d : Nat) :
      OrchStep cap ⟨f + 1, p, d⟩ ⟨f, p, d + 1⟩

/-- Modelled from the spec: states reachable from `n` pending units. -/
inductive OrchReachable (cap n : Nat) : OrchState → Prop
  | init : OrchReachable cap n ⟨0, n, 0⟩
  | step {s s2 : OrchState} : OrchReachable cap n s → OrchStep cap s s2 →
      OrchReachable cap n s2

/-- Modelled from the spec: the default concurrency cap of the phased and
fused parallel policies (spec section 4.4: "default 6 concurrent
units"). -/
def defaultConcurrency : Nat := 6

/-- C9: the default cap is 6, and under the semaphore-guarded scheduling
relation every reachable state of an orchestration over at least `cap`
units has at most `cap` units simultaneously in flight. -/
theorem orchestrator_bounded :
    defaultConcurrency = 6
    ∧ ∀ (cap n : Nat) (s : OrchState), cap ≤ n →
        OrchReachable cap n s → s.inFlight ≤ cap := by
  refine ⟨rfl, ?_⟩
  intro cap n s _ hreach
  induction hreach with
  | init => exact Nat.zero_le _
  | step _ hstep ih =>
    cases hstep with
    | acquire f p d hf => exact hf
    | release f p d => exact Nat.le_of_succ_le (by simpa using ih)

/-- C9 witness: with the default cap and six pending units, one acquire
step leads to a state with one unit in flight, within the bound. -/
theorem orchestrator_bounded_witness :
    ({ inFlight := 1, pending := 5, done := 0 } : OrchState).inFlight
      ≤ defaultConcurrency :=
  orchestrator_bounded.2 defaultConcurrency 6
    { inFlight := 1, pending := 5, done := 0 }
    (by decide)
    (OrchReachable.step OrchReachable.init
      (OrchStep.acquire 0 5 0 (by decide)))

/-- File-system path, as its list of components.  `src` and `dst` below are
absolute component lists (the Go code makes `dst` absolute with
`filepath.Abs` and is called with an absolute `src`). -/
abbrev Path := List String

/-- Source directory tree passed to the walk: named entries that are
either leaf files or subdirectories. -/
inductive FSTree where
  | file : FSTree
  | dir (entries : List (String × FSTree)) : FSTree

/-- A node of the destination file system: a real directory or a symbolic
link holding a (relative) target path. -/
inductive DstNode where
  | dir : DstNode
  | link (target : Path) : DstNode
deriving DecidableEq, Repr

/-- Destination file system: an association list from absolute paths to
nodes; earlier entries shadow later ones (new entries are consed on). -/
abbrev DstFS := List (Path × DstNode)

def fsFind : DstFS → Path → Option DstNode
  | [], _ => none
  | (q, node) :: rest, p => if q = p then some node else fsFind rest p

/-- Longest-common-prefix split of two component lists, the core of
`filepath.Rel`. -/
def splitCommon : Path → Path → Path × Path
  | a :: as, b :: bs => if a = b then splitCommon as bs else (a :: as, b :: bs)
  | as, bs => (as, bs)

/-- Model of `filepath.Rel(base, targ)` on clean absolute component lists:
climb out of the part of `base` beyond the common prefix, then descend
into the part of `targ` beyond it (brewery.go:508). -/
def goFilepathRel (base targ : Path) : Path :=
  let st := splitCommon base targ
  List.replicate st.1.length ".." ++ st.2

/-- Resolution of a relative path against a starting directory: a `..`
component drops the last component, any other component descends. -/
def resolvePath : Path → Path → Path
  | p, [] => p
  | p, c :: rest =>
    if c = ".." then resolvePath p.dropLast rest
    else resolvePath (p ++ [c]) rest

/-- One operation performed by the `WalkDir` callback (brewery.go:492-513):
create the directory at the given source-relative path, or create the
symlink for the file at the given source-relative path. -/
inductive WalkOp where
  | mkdirOp (rel : Path) : WalkOp
  | symlinkOp (rel : Path) : WalkOp
deriving DecidableEq, Repr

/-- The `filepath.WalkDir` visit order over the source tree (parent before
children, entries in list order), emitting one operation per visited
entry; the root itself is skipped (brewery.go:496-498). -/
def walkEntries : List (String × FSTree) → Path → List WalkOp
  | [], _ => []
  | (n, FSTree.file) :: rest, rel =>
    WalkOp.symlinkOp (rel ++ [n]) :: walkEntries rest rel
  | (n, FSTree.dir es) :: rest, rel =>
    WalkOp.mkdirOp (rel ++ [n])
      :: (walkEntries es (rel ++ [n]) ++ walkEntries rest rel)

/-- Effect of one walk operation on the destination file system.
`os.Mkdir` (brewery.go:502) fails when the path exists, but the code
ignores that failure via `os.IsExist`, so an existing path leaves the file
system unchanged; creation requires the parent directory.  `os.Symlink`
(brewery.go:509) fails when the path exists and requires the parent
directory; the link target is `filepath.Rel(dir(dstLocation), path)`. -/
def applyOp (src dst : Path) (fs : DstFS) : WalkOp → Except String DstFS
  | WalkOp.mkdirOp rel =>
    let p := dst ++ rel
    match fsFind fs p with
    | some _ => Except.ok fs
    | none =>
      match fsFind fs p.dropLast with
      | some DstNode.dir => Except.ok ((p, DstNode.dir) :: fs)
      | _ => Except.error "error creating dir"
  | WalkOp.symlinkOp rel =>
    let p := dst ++ rel
    match fsFind fs p with
    | some _ => Except.error "error symlinking"
    | none =>
      match fsFind fs p.dropLast with
      | some DstNode.dir =>
        Except.ok ((p, DstNode.link (goFilepathRel p.dropLast (src ++ rel)))
          :: fs)
      | _ => Except.error "error symlinking"

def runOps (src dst : Path) : DstFS → List WalkOp → Except String DstFS
  | fs, [] => Except.ok fs
  | fs, op :: rest =>
    match applyOp src dst fs op with
    | Except.ok fs2 => runOps src dst fs2 rest
    | Except.error e => Except.error e

/-- Model of `cloneDirWithSymlinks` (brewery.go:487-517): walk the source
tree (given as the entries of the source directory) and perform each
mkdir/symlink against the destination file system `fs0`. -/
def cloneDirWithSymlinks (src dst : Path) (tree : List (String × FSTree))
    (fs0 : DstFS) : Except String DstFS :=
  runOps src dst fs0 (walkEntries tree [])

/-- Source-relative paths of all subdirectories of the tree. -/
def dirPathsOf : List (String × FSTree) → List Path
  | [] => []
  | (_, FSTree.file) :: rest => dirPathsOf rest
  | (n, FSTree.dir es) :: rest =>
    [n] :: ((dirPathsOf es).map (fun q => n :: q) ++ dirPathsOf rest)

/-- Source-relative paths of all leaf files of the tree. -/
def filePathsOf : List (String × FSTree) → List Path
  | [] => []
  | (n, FSTree.file) :: rest => [n] :: filePathsOf rest
  | (n, FSTree.dir es) :: rest =>
    (filePathsOf es).map (fun q => n :: q) ++ filePathsOf rest

/-- A clean file name: nonempty and not one of the special components. -/
def cleanName (n : String) : Bool :=
  decide (n ≠ "" ∧ n ≠ "." ∧ n ≠ "..")

mutual

/-- All names in the tree are clean and sibling names are distinct. -/
def cleanEntries : List (String × FSTree) → Bool
  | [] => true
  | (n, c) :: rest =>
    cleanName n && !(rest.any (fun e => decide (e.1 = n)))
      && cleanChild c && cleanEntries rest

def cleanChild : FSTree → Bool
  | FSTree.file => true
  | FSTree.dir es => cleanEntries es

end

/-- The common-prefix split really splits off a common prefix. -/
theorem splitCommon_spec :
    ∀ base targ : Path,
      ∃ com, base = com ++ (splitCommon base targ).1
        ∧ targ = com ++ (splitCommon base targ).2 := by
  intro base
  induction base with
  | nil =>
    intro targ
    exact ⟨[], rfl, rfl⟩
  | cons a as ih =>
    intro targ
    cases targ with
    | nil => exact ⟨[], rfl, rfl⟩
    | cons b bs =>
      by_cases hab : a = b
      · subst hab
        obtain ⟨com, h1, h2⟩ := ih bs
        have heq : splitCommon (a :: as) (a :: bs) = splitCommon as bs := by
          rw [splitCommon, if_pos rfl]
        rw [heq]
        exact ⟨a :: com, by rw [List.cons_append, ← h1],
          by rw [List.cons_append, ← h2]⟩
      · have heq : splitCommon (a :: as) (b :: bs) = (a :: as, b :: bs) := by
          rw [splitCommon, if_neg hab]
        rw [heq]
        exact ⟨[], rfl, rfl⟩

/-- Resolving a block of `..` components pops that many components. -/
theorem resolvePath_replicate :
    ∀ (n : Nat) (q t : Path), n ≤ q.length →
      resolvePath q (List.replicate n ".." ++ t)
        = resolvePath (q.take (q.length - n)) t := by
  intro n
  induction n with
  | zero =>
    intro q t _
    simp
  | succ n2 ih =>
    intro q t hn
    rw [List.replicate_succ, List.cons_append, resolvePath, if_pos rfl]
    have hlen : n2 ≤ q.dropLast.length := by
      rw [List.length_dropLast]
      omega
    rw [ih q.dropLast t hlen]
    congr 1
    rw [List.dropLast_eq_take, List.take_take, List.length_take]
    congr 1
    omega

/-- Resolving a `..`-free relative path is plain concatenation. -/
theorem resolvePath_clean :
    ∀ (t com : Path), (∀ c ∈ t, c ≠ "..") →
      resolvePath com t = com ++ t := by
  intro t
  induction t with
  | nil =>
    intro com _
    simp [resolvePath]
  | cons c rest ih =>
    intro com h
    have hc : ¬ c = ".." := h c (List.mem_cons_self _ _)
    rw [resolvePath, if_neg hc,
      ih (com ++ [c]) (fun x hx => h x (List.mem_cons_of_mem _ hx))]
    simp

/-- Resolving the computed relative target from its base recovers the
target, for `..`-free targets: the round trip behind each symlink. -/
theorem resolvePath_goFilepathRel (base targ : Path)
    (h : ∀ c ∈ targ, c ≠ "..") :
    resolvePath base (goFilepathRel base targ) = targ := by
  simp only [goFilepathRel]
  obtain ⟨com, h1, h2⟩ := splitCommon_spec base targ
  set st := splitCommon base targ with hst
  have hlen1 := congrArg List.length h1
  rw [List.length_append] at hlen1
  have hle : st.1.length ≤ base.length := by omega
  rw [resolvePath_replicate _ base _ hle]
  have hb : base.length - st.1.length = com.length := by omega
  rw [hb]
  have htake : base.take com.length = com := by
    rw [h1, List.take_left]
  rw [htake, resolvePath_clean _ com ?_]
  · exact h2.symm
  · intro c hc
    exact h c (h2 ▸ List.mem_append_right com hc)

/-- Appending distinct suffixes to one base yields distinct paths. -/
theorem append_ne_of_ne {l1 l2 : Path} (base : Path) (h : l1 ≠ l2) :
    base ++ l1 ≠ base ++ l2 :=
  fun heq => h (List.append_cancel_left heq)

/-- Every file path of a tree starts with one of its entry names. -/
theorem filePathsOf_shape :
    ∀ (es : List (String × FSTree)) (q : Path), q ∈ filePathsOf es →
      ∃ m qs, q = m :: qs ∧ m ∈ es.map Prod.fst := by
  intro es
  induction es with
  | nil =>
    intro q hq
    rw [filePathsOf] at hq
    exact absurd hq (List.not_mem_nil q)
  | cons e rest ih =>
    obtain ⟨n, c⟩ := e
    cases c with
    | file =>
      intro q hq
      rw [filePathsOf] at hq
      rcases List.mem_cons.mp hq with rfl | hmem
      · exact ⟨n, [], rfl, List.mem_cons_self _ _⟩
      · obtain ⟨m, qs, hq2, hm⟩ := ih q hmem
        exact ⟨m, qs, hq2, List.mem_cons_of_mem _ hm⟩
    | dir es2 =>
      intro q hq
      rw [filePathsOf] at hq
      rcases List.mem_append.mp hq with hmem | hmem
      · obtain ⟨q2, _, hq2⟩ := List.mem_map.mp hmem
        exact ⟨n, q2, hq2.symm, List.mem_cons_self _ _⟩
      · obtain ⟨m, qs, hq2, hm⟩ := ih q hmem
        exact ⟨m, qs, hq2, List.mem_cons_of_mem _ hm⟩

/-- Every directory path of a tree starts with one of its entry names. -/
theorem dirPathsOf_shape :
    ∀ (es : List (String × FSTree)) (q : Path), q ∈ dirPathsOf es →
      ∃ m qs, q = m :: qs ∧ m ∈ es.map Prod.fst := by
  intro es
  induction es with
  | nil =>
    intro q hq
    rw [dirPathsOf] at hq
    exact absurd hq (List.not_mem_nil q)
  | cons e rest ih =>
    obtain ⟨n, c⟩ := e
    cases c with
    | file =>
      intro q hq
      rw [dirPathsOf] at hq
      obtain ⟨m, qs, hq2, hm⟩ := ih q hq
      exact ⟨m, qs, hq2, List.mem_cons_of_mem _ hm⟩
    | dir es2 =>
      intro q hq
      rw [dirPathsOf] at hq
      rcases List.mem_cons.mp hq with rfl | hmem
      · exact ⟨n, [], rfl, List.mem_cons_self _ _⟩
      · rcases List.mem_append.mp hmem with hmem2 | hmem2
        · obtain ⟨q2, _, hq2⟩ := List.mem_map.mp hmem2
          exact ⟨n, q2, hq2.symm, List.mem_cons_self _ _⟩
        · obtain ⟨m, qs, hq2, hm⟩ := ih q hmem2
          exact ⟨m, qs, hq2, List.mem_cons_of_mem _ hm⟩

/-- Unpacking one clean entry. -/
theorem cleanEntries_cons {n : String} {c : FSTree}
    {rest : List (String × FSTree)}
    (h : cleanEntries ((n, c) :: rest) = true) :
    cleanName n = true ∧ (∀ e ∈ rest, ¬ e.1 = n) ∧ cleanChild c = true
      ∧ cleanEntries rest = true := by
  rw [cleanEntries] at h
  simp only [Bool.and_eq_true, Bool.not_eq_true', List.any_eq_false,
    decide_eq_false_iff_not] at h
  refine ⟨h.1.1.1, fun e he => ?_, h.1.2, h.2⟩
  have h2 := h.1.1.2 e he
  simpa using h2

theorem cleanName_ne_dotdot {n : String} (h : cleanName n = true) :
    n ≠ ".." := by
  rw [cleanName, decide_eq_true_eq] at h
  exact h.2.2

/-- Running a successful prefix of operations and continuing. -/
theorem runOps_append (src dst : Path) :
    ∀ (l1 l2 : List WalkOp) (fs fs1 : DstFS),
      runOps src dst fs l1 = Except.ok fs1 →
      runOps src dst fs (l1 ++ l2) = runOps src dst fs1 l2 := by
  intro l1
  induction l1 with
  | nil =>
    intro l2 fs fs1 h
    injection h with h
    rw [List.nil_append, h]
  | cons op rest ih =>
    intro l2 fs fs1 h
    cases happ : applyOp src dst fs op with
    | ok fsx =>
      simp only [List.cons_append, runOps, happ]
      simp only [runOps, happ] at h
      exact ih l2 fsx fs1 h
    | error e =>
      simp only [runOps, happ] at h
      cases h

mutual

/-- Weight of a tree node, for fuel induction. -/
def treeSize : FSTree → Nat
  | FSTree.file => 1
  | FSTree.dir es => 1 + entriesSize es

/-- Weight of an entry list, for fuel induction. -/
def entriesSize : List (String × FSTree) → Nat
  | [] => 0
  | (_, c) :: rest => 1 + treeSize c + entriesSize rest

end

theorem fsFind_cons_ne {fs : DstFS} {k p : Path} {node : DstNode}
    (h : ¬ k = p) : fsFind ((k, node) :: fs) p = fsFind fs p := by
  rw [fsFind, if_neg h]

theorem fsFind_cons_self {fs : DstFS} {k : Path} {node : DstNode} :
    fsFind ((k, node) :: fs) k = some node := by
  rw [fsFind, if_pos rfl]

theorem dropLast_append_singleton (l : Path) (x : String) :
    (l ++ [x]).dropLast = l := by
  simp

theorem ne_append_cons (base : Path) (m : String) (qs : Path) :
    base ≠ base ++ m :: qs := by
  intro h
  have h2 := congrArg List.length h
  rw [List.length_append, List.length_cons] at h2
  omega

theorem cons_ne_cons_head {n m : String} (qs rs : Path) (h : ¬ n = m) :
    (n :: qs : Path) ≠ m :: rs := by
  intro heq
  injection heq with h1 _
  exact h h1

theorem singleton_ne_cons_cons {n m : String} (qs : Path) :
    ([n] : Path) ≠ n :: m :: qs := by
  intro h
  injection h with _ h2
  exact absurd h2.symm (List.cons_ne_nil m qs)

/-- Walk invariant: running the operations of a clean entry list, from a
state in which the current destination directory exists, the tree's file
positions are absent, and its directory positions are absent or already
directories, succeeds and produces exactly the corresponding directories
and resolving symlinks, and leaves every other path untouched. -/
theorem runOps_walk (src dst : Path) (hsrc : ∀ c ∈ src, c ≠ "..") :
    ∀ (N : Nat) (es : List (String × FSTree)), entriesSize es ≤ N →
    ∀ (rel : Path) (fs : DstFS),
      (∀ c ∈ rel, c ≠ "..") →
      cleanEntries es = true →
      fsFind fs (dst ++ rel) = some DstNode.dir →
      (∀ q ∈ filePathsOf es, fsFind fs (dst ++ rel ++ q) = none) →
      (∀ q ∈ dirPathsOf es, fsFind fs (dst ++ rel ++ q) = none
        ∨ fsFind fs (dst ++ rel ++ q) = some DstNode.dir) →
      ∃ fs2,
        runOps src dst fs (walkEntries es rel) = Except.ok fs2
        ∧ (∀ q ∈ dirPathsOf es,
            fsFind fs2 (dst ++ rel ++ q) = some DstNode.dir)
        ∧ (∀ q ∈ filePathsOf es, ∃ t,
            fsFind fs2 (dst ++ rel ++ q) = some (DstNode.link t)
            ∧ resolvePath (dst ++ rel ++ q).dropLast t = src ++ rel ++ q)
        ∧ (∀ p, (∀ q ∈ dirPathsOf es, p ≠ dst ++ rel ++ q) →
            (∀ q ∈ filePathsOf es, p ≠ dst ++ rel ++ q) →
            fsFind fs2 p = fsFind fs p) := by
  intro N
  induction N with
  | zero =>
    intro es hes rel fs _ _ _ _ _
    have hnil : es = [] := by
      cases es with
      | nil => rfl
      | cons e rest =>
        exfalso
        obtain ⟨n, c⟩ := e
        rw [entriesSize] at hes
        omega
    subst hnil
    refine ⟨fs, by rw [walkEntries]; rfl, ?_, ?_, fun p _ _ => rfl⟩
    · intro q hq
      rw [dirPathsOf] at hq
      exact absurd hq (List.not_mem_nil q)
    · intro q hq
      rw [filePathsOf] at hq
      exact absurd hq (List.not_mem_nil q)
  | succ N ih =>
    intro es hes rel fs hrel hclean hroot hfiles hdirs
    cases es with
    | nil =>
      refine ⟨fs, by rw [walkEntries]; rfl, ?_, ?_, fun p _ _ => rfl⟩
      · intro q hq
        rw [dirPathsOf] at hq
        exact absurd hq (List.not_mem_nil q)
      · intro q hq
        rw [filePathsOf] at hq
        exact absurd hq (List.not_mem_nil q)
    | cons e rest =>
      obtain ⟨n, c⟩ := e
      obtain ⟨hn, hnd, hcc, hcrest⟩ := cleanEntries_cons hclean
      have hne : n ≠ ".." := cleanName_ne_dotdot hn
      have hnameddiff : ∀ {m : String}, m ∈ rest.map Prod.fst → ¬ n = m := by
        intro m hm hEq
        obtain ⟨e2, he2, he2m⟩ := List.mem_map.mp hm
        exact (hnd e2 he2) (by rw [he2m, ← hEq])
      have hassoc : dst ++ (rel ++ [n]) = dst ++ rel ++ [n] :=
        (List.append_assoc dst rel [n]).symm
      have hdrop : (dst ++ rel ++ [n]).dropLast = dst ++ rel :=
        dropLast_append_singleton _ n
      have hpath : ∀ (a : Path) (q : Path),
          a ++ (rel ++ [n]) ++ q = a ++ rel ++ (n :: q) := by
        intro a q
        simp [List.append_assoc]
      cases c with
      | file =>
        have hsz : entriesSize rest ≤ N := by
          rw [entriesSize, treeSize] at hes
          omega
        have hmemn : ([n] : Path) ∈ filePathsOf ((n, FSTree.file) :: rest) := by
          rw [filePathsOf]
          exact List.mem_cons_self _ _
        have hpnone : fsFind fs (dst ++ rel ++ [n]) = none := hfiles [n] hmemn
        have happly : applyOp src dst fs (WalkOp.symlinkOp (rel ++ [n]))
            = Except.ok ((dst ++ rel ++ [n],
                DstNode.link
                  (goFilepathRel (dst ++ rel) (src ++ (rel ++ [n]))))
              :: fs) := by
          simp only [applyOp, hassoc, hpnone, hdrop, hroot]
        have hkey : ∀ {q : Path}, q ∈ filePathsOf rest ++ dirPathsOf rest →
            ¬ dst ++ rel ++ [n] = dst ++ rel ++ q := by
          intro q hq
          obtain ⟨m, qs, hq2, hm⟩ :=
            (List.mem_append.mp hq).elim (filePathsOf_shape rest q)
              (dirPathsOf_shape rest q)
          subst hq2
          exact append_ne_of_ne (dst ++ rel)
            (cons_ne_cons_head [] qs (hnameddiff hm))
        set fsN := ((dst ++ rel ++ [n],
          DstNode.link (goFilepathRel (dst ++ rel) (src ++ (rel ++ [n]))))
          :: fs) with hfsN
        have hkeyroot : ¬ dst ++ rel ++ [n] = dst ++ rel := by
          intro h
          exact ne_append_cons (dst ++ rel) n [] h.symm
        have hrootN : fsFind fsN (dst ++ rel) = some DstNode.dir := by
          rw [hfsN, fsFind_cons_ne hkeyroot]
          exact hroot
        have hfilesN : ∀ q ∈ filePathsOf rest,
            fsFind fsN (dst ++ rel ++ q) = none := by
          intro q hq
          rw [hfsN, fsFind_cons_ne (hkey (List.mem_append_left _ hq))]
          exact hfiles q (by rw [filePathsOf]; exact List.mem_cons_of_mem _ hq)
        have hdirsN : ∀ q ∈ dirPathsOf rest,
            fsFind fsN (dst ++ rel ++ q) = none
              ∨ fsFind fsN (dst ++ rel ++ q) = some DstNode.dir := by
          intro q hq
          rw [hfsN, fsFind_cons_ne (hkey (List.mem_append_right _ hq))]
          exact hdirs q (by rw [dirPathsOf]; exact hq)
        obtain ⟨fs2, hrun2, hdirs2, hfiles2, hframe2⟩ :=
          ih rest hsz rel fsN hrel hcrest hrootN hfilesN hdirsN
        refine ⟨fs2, ?_, ?_, ?_, ?_⟩
        · rw [walkEntries]
          simp only [runOps, happly]
          exact hrun2
        · intro q hq
          rw [dirPathsOf] at hq
          exact hdirs2 q hq
        · intro q hq
          rw [filePathsOf] at hq
          rcases List.mem_cons.mp hq with rfl | hq2
          · have hc1 : ∀ q2 ∈ dirPathsOf rest,
                dst ++ rel ++ [n] ≠ dst ++ rel ++ q2 :=
              fun q2 hq2 => hkey (List.mem_append_right _ hq2)
            have hc2 : ∀ q2 ∈ filePathsOf rest,
                dst ++ rel ++ [n] ≠ dst ++ rel ++ q2 :=
              fun q2 hq2 => hkey (List.mem_append_left _ hq2)
            refine ⟨goFilepathRel (dst ++ rel) (src ++ (rel ++ [n])), ?_, ?_⟩
            · rw [hframe2 _ hc1 hc2, hfsN]
              exact fsFind_cons_self
            · rw [hdrop, resolvePath_goFilepathRel _ _ ?_, List.append_assoc]
              intro c hc
              rcases List.mem_append.mp hc with hc2 | hc2
              · exact hsrc c hc2
              · rcases List.mem_append.mp hc2 with hc3 | hc3
                · exact hrel c hc3
                · rw [List.mem_singleton] at hc3
                  exact hc3 ▸ hne
          · exact hfiles2 q hq2
        · intro p hpd hpf
          have hc1 : ∀ q ∈ dirPathsOf rest, p ≠ dst ++ rel ++ q :=
            fun q hq => hpd q (by rw [dirPathsOf]; exact hq)
          have hc2 : ∀ q ∈ filePathsOf rest, p ≠ dst ++ rel ++ q :=
            fun q hq => hpf q
              (by rw [filePathsOf]; exact List.mem_cons_of_mem _ hq)
          have hc3 : ¬ dst ++ rel ++ [n] = p :=
            fun h => hpf [n] hmemn h.symm
          rw [hframe2 p hc1 hc2, hfsN, fsFind_cons_ne hc3]
      | dir es2 =>
        rw [cleanChild] at hcc
        have hsz2 : entriesSize es2 ≤ N := by
          rw [entriesSize, treeSize] at hes
          omega
        have hszrest : entriesSize rest ≤ N := by
          rw [entriesSize, treeSize] at hes
          omega
        have hmemn : ([n] : Path)
            ∈ dirPathsOf ((n, FSTree.dir es2) :: rest) := by
          rw [dirPathsOf]
          exact List.mem_cons_self _ _
        obtain ⟨fs1, happly, hfs1p, hfs1frame⟩ :
            ∃ fs1, applyOp src dst fs (WalkOp.mkdirOp (rel ++ [n]))
                = Except.ok fs1
              ∧ fsFind fs1 (dst ++ rel ++ [n]) = some DstNode.dir
              ∧ ∀ p, ¬ dst ++ rel ++ [n] = p →
                  fsFind fs1 p = fsFind fs p := by
          rcases hdirs [n] hmemn with hpn | hpd
          · refine ⟨(dst ++ rel ++ [n], DstNode.dir) :: fs, ?_,
              fsFind_cons_self, ?_⟩
            · simp only [applyOp, hassoc, hpn, hdrop, hroot]
            · intro p hp
              exact fsFind_cons_ne hp
          · refine ⟨fs, ?_, hpd, fun p _ => rfl⟩
            simp only [applyOp, hassoc, hpd]
        have hchildpos : ∀ (q' : Path),
            q' ∈ filePathsOf es2 ∨ q' ∈ dirPathsOf es2 →
            ∃ m qs, q' = m :: qs := by
          intro q' hq'
          rcases hq' with h | h
          · obtain ⟨m, qs, hq2, _⟩ := filePathsOf_shape es2 q' h
            exact ⟨m, qs, hq2⟩
          · obtain ⟨m, qs, hq2, _⟩ := dirPathsOf_shape es2 q' h
            exact ⟨m, qs, hq2⟩
        have hrelchild : ∀ c ∈ rel ++ [n], c ≠ ".." := by
          intro c hc
          rcases List.mem_append.mp hc with h | h
          · exact hrel c h
          · rw [List.mem_singleton] at h
            exact h ▸ hne
        have hrootchild : fsFind fs1 (dst ++ (rel ++ [n]))
            = some DstNode.dir := by
          rw [hassoc]
          exact hfs1p
        have hkeychild : ∀ {q' : Path}, (∃ m qs, q' = m :: qs) →
            ¬ dst ++ rel ++ [n] = dst ++ rel ++ (n :: q') := by
          rintro q' ⟨m, qs, hq2⟩
          subst hq2
          exact append_ne_of_ne (dst ++ rel) (singleton_ne_cons_cons _)
        have hfileschild : ∀ q' ∈ filePathsOf es2,
            fsFind fs1 (dst ++ (rel ++ [n]) ++ q') = none := by
          intro q' hq'
          rw [hpath dst q', hfs1frame _ (hkeychild (hchildpos q' (Or.inl hq')))]
          exact hfiles (n :: q')
            (by rw [filePathsOf]
                exact List.mem_append_left _ (List.mem_map_of_mem _ hq'))
        have hdirschild : ∀ q' ∈ dirPathsOf es2,
            fsFind fs1 (dst ++ (rel ++ [n]) ++ q') = none
              ∨ fsFind fs1 (dst ++ (rel ++ [n]) ++ q')
                  = some DstNode.dir := by
          intro q' hq'
          rw [hpath dst q', hfs1frame _ (hkeychild (hchildpos q' (Or.inr hq')))]
          exact hdirs (n :: q')
            (by rw [dirPathsOf]
                exact List.mem_cons_of_mem _
                  (List.mem_append_left _ (List.mem_map_of_mem _ hq')))
        obtain ⟨fs2, hrunchild, hdirschild2, hfileschild2, hframechild⟩ :=
          ih es2 hsz2 (rel ++ [n]) fs1 hrelchild hcc hrootchild hfileschild
            hdirschild
        have hrestne : ∀ {q : Path}, q ∈ filePathsOf rest ++ dirPathsOf rest →
            ∃ m qs, q = m :: qs ∧ ¬ n = m := by
          intro q hq
          obtain ⟨m, qs, hq2, hm⟩ :=
            (List.mem_append.mp hq).elim (filePathsOf_shape rest q)
              (dirPathsOf_shape rest q)
          exact ⟨m, qs, hq2, hnameddiff hm⟩
        have hframe12 : ∀ {q : Path}, q ∈ filePathsOf rest ++ dirPathsOf rest →
            fsFind fs2 (dst ++ rel ++ q) = fsFind fs (dst ++ rel ++ q) := by
          intro q hq
          obtain ⟨m, qs, hq2, hnm⟩ := hrestne hq
          subst hq2
          have hc1 : ∀ q2 ∈ dirPathsOf es2,
              dst ++ rel ++ (m :: qs) ≠ dst ++ (rel ++ [n]) ++ q2 := by
            intro q2 hq2
            rw [hpath dst q2]
            exact append_ne_of_ne (dst ++ rel)
              (cons_ne_cons_head qs q2 (fun h2 => hnm h2.symm))
          have hc2 : ∀ q2 ∈ filePathsOf es2,
              dst ++ rel ++ (m :: qs) ≠ dst ++ (rel ++ [n]) ++ q2 := by
            intro q2 hq2
            rw [hpath dst q2]
            exact append_ne_of_ne (dst ++ rel)
              (cons_ne_cons_head qs q2 (fun h2 => hnm h2.symm))
          rw [hframechild _ hc1 hc2]
          exact hfs1frame _ (append_ne_of_ne (dst ++ rel)
            (cons_ne_cons_head [] qs hnm))
        have hrootrest : fsFind fs2 (dst ++ rel) = some DstNode.dir := by
          have hc1 : ∀ q2 ∈ dirPathsOf es2,
              dst ++ rel ≠ dst ++ (rel ++ [n]) ++ q2 := by
            intro q2 hq2
            rw [hpath dst q2]
            exact ne_append_cons (dst ++ rel) n q2
          have hc2 : ∀ q2 ∈ filePathsOf es2,
              dst ++ rel ≠ dst ++ (rel ++ [n]) ++ q2 := by
            intro q2 hq2
            rw [hpath dst q2]
            exact ne_append_cons (dst ++ rel) n q2
          rw [hframechild _ hc1 hc2,
            hfs1frame _ (fun h => ne_append_cons (dst ++ rel) n [] h.symm)]
          exact hroot
        have hfilesrest : ∀ q ∈ filePathsOf rest,
            fsFind fs2 (dst ++ rel ++ q) = none := by
          intro q hq
          rw [hframe12 (List.mem_append_left _ hq)]
          exact hfiles q
            (by rw [filePathsOf]; exact List.mem_append_right _ hq)
        have hdirsrest : ∀ q ∈ dirPathsOf rest,
            fsFind fs2 (dst ++ rel ++ q) = none
              ∨ fsFind fs2 (dst ++ rel ++ q) = some DstNode.dir := by
          intro q hq
          rw [hframe12 (List.mem_append_right _ hq)]
          exact hdirs q
            (by rw [dirPathsOf]
                exact List.mem_cons_of_mem _ (List.mem_append_right _ hq))
        obtain ⟨fs3, hrunrest, hdirsrest2, hfilesrest2, hframerest⟩ :=
          ih rest hszrest rel fs2 hrel hcrest hrootrest hfilesrest hdirsrest
        have hframe23 : ∀ (q' : Path),
            fsFind fs3 (dst ++ rel ++ (n :: q'))
              = fsFind fs2 (dst ++ rel ++ (n :: q')) := by
          intro q'
          have hc1 : ∀ q2 ∈ dirPathsOf rest,
              dst ++ rel ++ (n :: q') ≠ dst ++ rel ++ q2 := by
            intro q2 hq2
            obtain ⟨m, qs, hq3, hm⟩ := dirPathsOf_shape rest q2 hq2
            subst hq3
            exact append_ne_of_ne (dst ++ rel)
              (cons_ne_cons_head q' qs (hnameddiff hm))
          have hc2 : ∀ q2 ∈ filePathsOf rest,
              dst ++ rel ++ (n :: q') ≠ dst ++ rel ++ q2 := by
            intro q2 hq2
            obtain ⟨m, qs, hq3, hm⟩ := filePathsOf_shape rest q2 hq2
            subst hq3
            exact append_ne_of_ne (dst ++ rel)
              (cons_ne_cons_head q' qs (hnameddiff hm))
          exact hframerest _ hc1 hc2
        refine ⟨fs3, ?_, ?_, ?_, ?_⟩
        · rw [walkEntries]
          simp only [runOps, happly]
          rw [runOps_append src dst _ _ fs1 fs2 hrunchild]
          exact hrunrest
        · intro q hq
          rw [dirPathsOf] at hq
          rcases List.mem_cons.mp hq with rfl | hq2
          · rw [hframe23 []]
            have hc1 : ∀ q2 ∈ dirPathsOf es2,
                dst ++ rel ++ [n] ≠ dst ++ (rel ++ [n]) ++ q2 := by
              intro q2 hq2
              rw [hpath dst q2]
              exact hkeychild (hchildpos q2 (Or.inr hq2))
            have hc2 : ∀ q2 ∈ filePathsOf es2,
                dst ++ rel ++ [n] ≠ dst ++ (rel ++ [n]) ++ q2 := by
              intro q2 hq2
              rw [hpath dst q2]
              exact hkeychild (hchildpos q2 (Or.inl hq2))
            rw [hframechild _ hc1 hc2]
            exact hfs1p
          · rcases List.mem_append.mp hq2 with hq3 | hq3
            · obtain ⟨q', hq', rfl⟩ := List.mem_map.mp hq3
              rw [hframe23 q']
              have hres := hdirschild2 q' hq'
              rw [hpath dst q'] at hres
              exact hres
            · exact hdirsrest2 q hq3
        · intro q hq
          rw [filePathsOf] at hq
          rcases List.mem_append.mp hq with hq3 | hq3
          · obtain ⟨q', hq', rfl⟩ := List.mem_map.mp hq3
            obtain ⟨t, ht1, ht2⟩ := hfileschild2 q' hq'
            rw [hpath dst q'] at ht1
            rw [show (dst ++ (rel ++ [n]) ++ q').dropLast
                = (dst ++ rel ++ (n :: q')).dropLast
              from by rw [hpath dst q'], hpath src q'] at ht2
            refine ⟨t, ?_, ht2⟩
            rw [hframe23 q']
            exact ht1
          · exact hfilesrest2 q hq3
        · intro p hpd hpf
          have hc1 : ∀ q ∈ dirPathsOf rest, p ≠ dst ++ rel ++ q := by
            intro q hq
            exact hpd q
              (by rw [dirPathsOf]
                  exact List.mem_cons_of_mem _ (List.mem_append_right _ hq))
          have hc2 : ∀ q ∈ filePathsOf rest, p ≠ dst ++ rel ++ q := by
            intro q hq
            exact hpf q (by rw [filePathsOf]; exact List.mem_append_right _ hq)
          rw [hframerest p hc1 hc2]
          have hc3 : ∀ q ∈ dirPathsOf es2, p ≠ dst ++ (rel ++ [n]) ++ q := by
            intro q hq
            rw [hpath dst q]
            exact hpd (n :: q)
              (by rw [dirPathsOf]
                  exact List.mem_cons_of_mem _
                    (List.mem_append_left _ (List.mem_map_of_mem _ hq)))
          have hc4 : ∀ q ∈ filePathsOf es2, p ≠ dst ++ (rel ++ [n]) ++ q := by
            intro q hq
            rw [hpath dst q]
            exact hpf (n :: q)
              (by rw [filePathsOf]
                  exact List.mem_append_left _ (List.mem_map_of_mem _ hq))
          rw [hframechild p hc3 hc4]
          exact hfs1frame p (fun h => hpd [n] hmemn h.symm)

/-- C4: for existing source and destination directories (destination
present in `fs0`; directories may already exist at destination paths —
nested directory creation is idempotent and not an error),
`cloneDirWithSymlinks` succeeds and the destination tree is
directory-isomorphic to the source tree: every source subdirectory
corresponds to a destination directory, every source leaf corresponds to a
symbolic link whose relative target, resolved from the link's own parent
directory, is the corresponding source file, and no destination path
outside the cloned tree is touched. -/
theorem cloneDirWithSymlinks_spec (src dst : Path)
    (tree : List (String × FSTree)) (fs0 : DstFS)
    (hsrc : ∀ c ∈ src, c ≠ "..")
    (hclean : cleanEntries tree = true)
    (hroot : fsFind fs0 dst = some DstNode.dir)
    (hfiles0 : ∀ q ∈ filePathsOf tree, fsFind fs0 (dst ++ q) = none)
    (hdirs0 : ∀ q ∈ dirPathsOf tree, fsFind fs0 (dst ++ q) = none
      ∨ fsFind fs0 (dst ++ q) = some DstNode.dir) :
    ∃ fs2, cloneDirWithSymlinks src dst tree fs0 = Except.ok fs2
      ∧ (∀ q ∈ dirPathsOf tree, fsFind fs2 (dst ++ q) = some DstNode.dir)
      ∧ (∀ q ∈ filePathsOf tree, ∃ t,
          fsFind fs2 (dst ++ q) = some (DstNode.link t)
          ∧ resolvePath (dst ++ q).dropLast t = src ++ q)
      ∧ (∀ p, (∀ q ∈ dirPathsOf tree, p ≠ dst ++ q) →
          (∀ q ∈ filePathsOf tree, p ≠ dst ++ q) →
          fsFind fs2 p = fsFind fs0 p) := by
  have h := runOps_walk src dst hsrc (entriesSize tree) tree (Nat.le_refl _)
    [] fs0 (by intro c hc; cases hc) hclean
    (by rw [List.append_nil]; exact hroot)
    (by intro q hq; rw [List.append_nil]; exact hfiles0 q hq)
    (by intro q hq; rw [List.append_nil]; exact hdirs0 q hq)
  obtain ⟨fs2, hrun, hd, hf, hfr⟩ := h
  simp only [List.append_nil] at hrun hd hf hfr
  exact ⟨fs2, by rw [cloneDirWithSymlinks]; exact hrun, hd, hf, hfr⟩

/-- C4 witness: a nested tree with one pre-existing destination directory
(idempotent mkdir) cloned between two absolute roots. -/
theorem cloneDirWithSymlinks_spec_witness :
    ∃ fs2, cloneDirWithSymlinks ["pkgs", "foo"] ["prefix", "out"]
        [("bin", FSTree.dir [("app", FSTree.file)]), ("readme", FSTree.file)]
        [(["prefix", "out"], DstNode.dir),
         (["prefix", "out", "bin"], DstNode.dir)]
      = Except.ok fs2
      ∧ (∀ q ∈ dirPathsOf
            [("bin", FSTree.dir [("app", FSTree.file)]),
             ("readme", FSTree.file)],
          fsFind fs2 (["prefix", "out"] ++ q) = some DstNode.dir)
      ∧ (∀ q ∈ filePathsOf
            [("bin", FSTree.dir [("app", FSTree.file)]),
             ("readme", FSTree.file)], ∃ t,
          fsFind fs2 (["prefix", "out"] ++ q) = some (DstNode.link t)
          ∧ resolvePath (["prefix", "out"] ++ q).dropLast t
              = ["pkgs", "foo"] ++ q)
      ∧ (∀ p, (∀ q ∈ dirPathsOf
            [("bin", FSTree.dir [("app", FSTree.file)]),
             ("readme", FSTree.file)], p ≠ ["prefix", "out"] ++ q) →
          (∀ q ∈ filePathsOf
            [("bin", FSTree.dir [("app", FSTree.file)]),
             ("readme", FSTree.file)], p ≠ ["prefix", "out"] ++ q) →
          fsFind fs2 p
            = fsFind [(["prefix", "out"], DstNode.dir),
                (["prefix", "out", "bin"], DstNode.dir)] p) :=
  cloneDirWithSymlinks_spec ["pkgs", "foo"] ["prefix", "out"]
    [("bin", FSTree.dir [("app", FSTree.file)]), ("readme", FSTree.file)]
    [(["prefix", "out"], DstNode.dir),
     (["prefix", "out", "bin"], DstNode.dir)]
    (by decide) (by decide) (by decide)
    (by simp only [filePathsOf, List.map]; decide)
    (by simp only [dirPathsOf, List.map]; decide)

end Brewery
